import Mathlib

/-!
Verification development for the `pace` hierarchical progress-reporting
library (`src/lib.rs`, `src/print.rs`).

The Rust code is shallowly embedded:
* `StageId` (a newtype over `usize`) is modelled as `Nat`;
* `HashMap` is modelled as a duplicate-free association list (`PMap`);
  only lookup, insert (overwrite), remove and the child-list values are
  observable, so the hash order is irrelevant;
* `ProgressTracker::update`, `ProgressTracker::print_item`, the
  `Reporter` handle with its `Drop` implementation, the atomic
  stage-id counter, and the throttled consumer loop of
  `print_reporter` are translated function by function.
-/

/-- `StageId(usize)` from `src/lib.rs`. -/
abbrev StageId := Nat

/-- `struct Progress { parent, total, count, name }` from `src/lib.rs`. -/
structure Progress where
  parent : StageId
  total : Nat
  count : Nat
  name : String
deriving DecidableEq, Repr

/-- `enum ProgressReport` from `src/lib.rs`: `BeginStage { id, name, steps }`,
`Progress` (a completed step), `EndStage`. -/
inductive ProgressReport where
  | BeginStage (id : StageId) (name : String) (steps : Nat)
  | Progress
  | EndStage
deriving DecidableEq, Repr

/-- Association-list model of `HashMap<StageId, α>`. -/
abbrev PMap (α : Type) := List (StageId × α)

/-- `HashMap::get`: first entry with the given key. -/
def PMap.find? {α : Type} : PMap α → StageId → Option α
  | [], _ => none
  | (k, v) :: rest, j => if k = j then some v else PMap.find? rest j

/-- `HashMap::insert`: overwrite any existing entry for the key. -/
def PMap.insert {α : Type} (m : PMap α) (k : StageId) (v : α) : PMap α :=
  (k, v) :: m.filter (fun e => e.1 != k)

/-- `HashMap::remove`: drop the entry for the key, if any. -/
def PMap.erase {α : Type} (m : PMap α) (k : StageId) : PMap α :=
  m.filter (fun e => e.1 != k)

/-- `struct ProgressTracker { items, children }` from `src/lib.rs`. -/
structure ProgressTracker where
  items : PMap Progress
  children : PMap (List StageId)
deriving DecidableEq, Repr

/-- `ProgressTracker::default()`: both maps empty. -/
def ProgressTracker.default : ProgressTracker := ⟨[], []⟩

/-- `ProgressTracker::update(&mut self, parent: StageId, report: ProgressReport)`
from `src/lib.rs` lines 40-63.  The first argument is called `parent` in the
source even though it is the event's target id.

* `BeginStage { id, name, steps }`: insert a fresh record for `id`
  (`count = 0`) and push `id` onto `parent`'s child list
  (`children.entry(parent).or_default().push(id)`).
* `EndStage`: if the target has a record and that record's `parent` has a
  record, increment the latter's `count`; then `children.remove(&parent)`,
  i.e. remove the *target's own* child-list entry.
* `Progress`: if the target has a record, increment its `count`. -/
def ProgressTracker.update (t : ProgressTracker) (parent : StageId)
    (report : ProgressReport) : ProgressTracker :=
  match report with
  | .BeginStage id name steps =>
      { items := PMap.insert t.items id ⟨parent, steps, 0, name⟩
        children := PMap.insert t.children parent
          ((PMap.find? t.children parent).getD [] ++ [id]) }
  | .EndStage =>
      let t1 :=
        match (PMap.find? t.items parent).map Progress.parent with
        | none => t
        | some gp =>
          match PMap.find? t.items gp with
          | none => t
          | some item =>
              { t with items := PMap.insert t.items gp { item with count := item.count + 1 } }
      { t1 with children := PMap.erase t1.children parent }
  | .Progress =>
      match PMap.find? t.items parent with
      | none => t
      | some item =>
          { t with items := PMap.insert t.items parent { item with count := item.count + 1 } }

/-- `ProgressTracker::print_item(&self, id, level)` from `src/lib.rs`
lines 67-74, with the printed lines returned as
`(level, name, count, total)` tuples instead of written to stdout.
The Rust recursion has no structural bound (a cyclic `children` map makes
it diverge), so the model takes explicit fuel; every finite unrolling of
the Rust recursion is some fuel value. -/
def ProgressTracker.printItem (t : ProgressTracker) :
    Nat → StageId → Nat → List (Nat × String × Nat × Nat)
  | 0, _, _ => []
  | fuel+1, id, level =>
    match PMap.find? t.items id with
    | none => []
    | some item =>
      (level, item.name, item.count, item.total) ::
        (((PMap.find? t.children id).getD []).map
          (fun c => ProgressTracker.printItem t fuel c (level + 1))).flatten

/-- `ProgressTracker::print`: render starting from the conventional root id 1. -/
def ProgressTracker.print (t : ProgressTracker) (fuel : Nat) :
    List (Nat × String × Nat × Nat) :=
  ProgressTracker.printItem t fuel 1 0

/-- Apply a sequence of `(target, report)` events in order, as the single
consumer thread does. -/
def applyEvents (t : ProgressTracker) (evs : List (StageId × ProgressReport)) :
    ProgressTracker :=
  evs.foldl (fun s e => ProgressTracker.update s e.1 e.2) t

/-- `usize::MAX + 1 = 2^64`, the modulus of `usize` arithmetic on the 64-bit
platforms the crate targets. -/
def USIZE : Nat := 18446744073709551616

/-- `ReporterData::make_id`: `fetch_add(1, Relaxed)` returns the previous
counter value and stores the incremented value, wrapping around on overflow
as `fetch_add` documents.  The atomic serialises concurrent callers, so any
interleaving of callers is some sequence of these calls. -/
def make_id (c : Nat) : StageId × Nat := (c, (c + 1) % USIZE)

/-- `Reporter::new` initialises the counter with `AtomicUsize::new(1)`. -/
def initialCounter : Nat := 1

/-- The ids returned by `n` successive `make_id` calls starting from
counter value `c`. -/
def idsFrom (c : Nat) : Nat → List StageId
  | 0 => []
  | n + 1 => (make_id c).1 :: idsFrom (make_id c).2 n

/-- `struct Reporter` (`src/lib.rs` lines 94-98): the per-stage handle;
only its bound stage id is observable to the tracker. -/
structure Reporter where
  id : StageId
deriving DecidableEq, Repr

/-- `#[derive(Clone)]` on `Reporter`: a clone is bound to the same stage id
(and shares the same `Arc<ReporterData>`). -/
def Reporter.clone (r : Reporter) : Reporter := ⟨r.id⟩

/-- `impl Drop for Reporter` (`src/lib.rs` lines 122-126): dropping a handle
emits `EndStage` with target = its own id. -/
def Reporter.dropEvent (r : Reporter) : StageId × ProgressReport :=
  (r.id, ProgressReport.EndStage)

/-- The events emitted when a collection of handles all go out of scope:
`Drop` runs once per handle value, clones included. -/
def dropAll (hs : List Reporter) : List (StageId × ProgressReport) :=
  hs.map Reporter.dropEvent

/-- One receive-with-timeout round of the inner loop of `print_reporter`
(`src/print.rs` lines 24-37), modelled over a time-ordered arrival queue
with instantaneous processing.  `rx.recv_timeout(delta)` at time `now`
returns the next queued event if it arrives by `now + delta`, else times
out at `now + delta`.  After applying an event the code sets
`delta = last_time.elapsed()` and breaks once `delta >= interval`.
Returns the tracker, the unconsumed queue and the current time at the
point the inner loop exits.  (The channel stays open throughout; a closed
channel would exit the outer loop instead.) -/
def sinkInner (interval lastTime : Nat) :
    ProgressTracker → List (Nat × StageId × ProgressReport) → Nat → Nat →
    ProgressTracker × List (Nat × StageId × ProgressReport) × Nat
  | t, [], now, delta => (t, [], now + delta)
  | t, (at_, id, ev) :: rest, now, delta =>
    if at_ ≤ now + delta then
      let now1 := max now at_
      let t1 := ProgressTracker.update t id ev
      let delta1 := now1 - lastTime
      if interval ≤ delta1 then (t1, rest, now1)
      else sinkInner interval lastTime t1 rest now1 delta1
    else (t, (at_, id, ev) :: rest, now + delta)

/-- The outer loop of `print_reporter`'s consumer thread
(`src/print.rs` lines 14-38): render, block for one event, apply it,
run the inner coalescing loop, repeat.  Renders are collected as
`(time, tracker-snapshot)` pairs.  A blocking `recv` on an empty queue
models a producer that stays alive but silent: the thread blocks and no
further render happens, so the collected list is complete.  `fuel` bounds
the number of outer iterations; `queue.length + 1` always suffices. -/
def sinkOuter (interval : Nat) :
    Nat → ProgressTracker → List (Nat × StageId × ProgressReport) → Nat →
    List (Nat × ProgressTracker) → List (Nat × ProgressTracker)
  | 0, _, _, _, acc => acc
  | fuel + 1, t, queue, now, acc =>
    let acc1 := acc ++ [(now, t)]
    match queue with
    | [] => acc1
    | (at_, id, ev) :: rest =>
      let now1 := max now at_
      let t1 := ProgressTracker.update t id ev
      let (t2, rest2, now2) := sinkInner interval now1 t1 rest now1 0
      sinkOuter interval fuel t2 rest2 now2 acc1

/-- The full render log of the throttled consumer started at time 0 on an
empty tracker, for a given arrival queue. -/
def sinkRenders (interval : Nat) (queue : List (Nat × StageId × ProgressReport)) :
    List (Nat × ProgressTracker) :=
  sinkOuter interval (queue.length + 1) ProgressTracker.default queue 0 []

/-- Validity of an event sequence, relative to the set of ids whose
`BeginStage` has already been applied: a `BeginStage` targets the virtual
root 0 or an already-begun parent, and `Progress`/`EndStage` target an
already-begun id (each stage's begin-event precedes its other events and
any begin-event naming it as parent). -/
def validOk (begun : List StageId) : List (StageId × ProgressReport) → Bool
  | [] => true
  | (target, ev) :: rest =>
    match ev with
    | .BeginStage id _ _ =>
        (target == 0 || begun.contains target) && validOk (id :: begun) rest
    | .Progress => begun.contains target && validOk begun rest
    | .EndStage => begun.contains target && validOk begun rest

/-- Recogniser for a `BeginStage` event that (re-)declares stage `X`. -/
def isBeginOf (X : StageId) : ProgressReport → Bool
  | .BeginStage id _ _ => id == X
  | _ => false

/-- Tree-consistency invariant: every key of the `children` map and every
`parent` field of a record is the virtual root 0 or an id with a record. -/
def treeConsistent (t : ProgressTracker) : Prop :=
  (∀ e ∈ t.children, e.1 = 0 ∨ (PMap.find? t.items e.1).isSome) ∧
  (∀ e ∈ t.items, (e : StageId × Progress).2.parent = 0 ∨
    (PMap.find? t.items e.2.parent).isSome)

/-! ### Association-list map lemmas -/

theorem PMap.find?_filter_ne {α : Type} (m : PMap α) (k j : StageId) (h : j ≠ k) :
    PMap.find? (m.filter (fun e => e.1 != k)) j = PMap.find? m j := by
  induction m with
  | nil => rfl
  | cons e rest ih =>
    obtain ⟨a, b⟩ := e
    by_cases hak : a = k
    · subst hak
      have haj : a ≠ j := fun hh => h hh.symm
      simp [List.filter_cons, PMap.find?, haj, ih]
    · by_cases haj : a = j
      · subst haj
        simp [List.filter_cons, PMap.find?, bne_iff_ne, hak]
      · simp [List.filter_cons, PMap.find?, bne_iff_ne, hak, haj, ih]

theorem PMap.find?_insert_self {α : Type} (m : PMap α) (k : StageId) (v : α) :
    PMap.find? (PMap.insert m k v) k = some v := by
  simp [PMap.insert, PMap.find?]

theorem PMap.find?_insert_ne {α : Type} (m : PMap α) (k j : StageId) (v : α)
    (h : j ≠ k) : PMap.find? (PMap.insert m k v) j = PMap.find? m j := by
  have hkj : k ≠ j := fun hh => h hh.symm
  simp [PMap.insert, PMap.find?, hkj, PMap.find?_filter_ne m k j h]

theorem PMap.find?_erase_self {α : Type} (m : PMap α) (k : StageId) :
    PMap.find? (PMap.erase m k) k = none := by
  induction m with
  | nil => rfl
  | cons e rest ih =>
    obtain ⟨a, b⟩ := e
    by_cases hak : a = k
    · subst hak
      simp [PMap.erase, List.filter_cons, PMap.find?] at ih ⊢
      exact ih
    · simp [PMap.erase, List.filter_cons, PMap.find?, bne_iff_ne, hak] at ih ⊢
      exact ih

theorem PMap.find?_erase_ne {α : Type} (m : PMap α) (k j : StageId) (h : j ≠ k) :
    PMap.find? (PMap.erase m k) j = PMap.find? m j :=
  PMap.find?_filter_ne m k j h

theorem PMap.erase_of_find?_none {α : Type} (m : PMap α) (k : StageId)
    (h : PMap.find? m k = none) : PMap.erase m k = m := by
  induction m with
  | nil => rfl
  | cons e rest ih =>
    obtain ⟨a, b⟩ := e
    by_cases hak : a = k
    · simp [PMap.find?, hak] at h
    · simp [PMap.find?, hak] at h
      simp [PMap.erase, List.filter_cons, bne_iff_ne, hak]
      simpa [PMap.erase] using ih h

theorem PMap.find?_some_mem {α : Type} {m : PMap α} {k : StageId} {v : α}
    (h : PMap.find? m k = some v) : (k, v) ∈ m := by
  induction m with
  | nil => simp [PMap.find?] at h
  | cons e rest ih =>
    obtain ⟨a, b⟩ := e
    by_cases hak : a = k
    · subst hak
      simp [PMap.find?] at h
      simp [h]
    · simp [PMap.find?, hak] at h
      exact List.mem_cons_of_mem _ (ih h)

theorem PMap.mem_insert {α : Type} {m : PMap α} {k : StageId} {v : α}
    {e : StageId × α} :
    e ∈ PMap.insert m k v ↔ e = (k, v) ∨ (e ∈ m ∧ e.1 ≠ k) := by
  simp [PMap.insert, List.mem_cons, List.mem_filter, bne_iff_ne]

theorem PMap.mem_erase {α : Type} {m : PMap α} {k : StageId} {e : StageId × α} :
    e ∈ PMap.erase m k ↔ e ∈ m ∧ e.1 ≠ k := by
  simp [PMap.erase, List.mem_filter, bne_iff_ne]

theorem PMap.isSome_find?_insert {α : Type} (m : PMap α) (k j : StageId) (v : α)
    (h : (PMap.find? m j).isSome) :
    (PMap.find? (PMap.insert m k v) j).isSome := by
  by_cases hjk : j = k
  · subst hjk
    simp [PMap.find?_insert_self]
  · rw [PMap.find?_insert_ne m k j v hjk]
    exact h

/-! ### Helper lemmas about `update` and `printItem` -/

/-- `EndStage` always replaces the children map by the map with the target's
entry removed, whatever the record lookups yield. -/
theorem update_end_children (t : ProgressTracker) (T : StageId) :
    (ProgressTracker.update t T .EndStage).children = PMap.erase t.children T := by
  cases hT : PMap.find? t.items T with
  | none => simp [ProgressTracker.update, hT]
  | some p =>
    cases hP : PMap.find? t.items p.parent with
    | none => simp [ProgressTracker.update, hT, hP]
    | some q => simp [ProgressTracker.update, hT, hP]

/-- When the target of `EndStage` has a record and that record's parent has a
record, the records map becomes the original with the parent's count bumped. -/
theorem update_end_items_bump (t : ProgressTracker) (T : StageId) (p q0 : Progress)
    (h : PMap.find? t.items T = some p)
    (hP : PMap.find? t.items p.parent = some q0) :
    (ProgressTracker.update t T .EndStage).items =
      PMap.insert t.items p.parent { q0 with count := q0.count + 1 } := by
  simp [ProgressTracker.update, h, hP]

/-- A stage whose children entry is absent renders as exactly its own line. -/
theorem printItem_leaf (t : ProgressTracker) (id : StageId) (q : Progress)
    (hi : PMap.find? t.items id = some q) (hc : PMap.find? t.children id = none)
    (fuel lvl : Nat) :
    ProgressTracker.printItem t (fuel + 1) id lvl = [(lvl, q.name, q.count, q.total)] := by
  simp [ProgressTracker.printItem, hi, hc]

/-- C4: if target `T` has a record whose parent also has a record, `EndStage`
on `T` sets the parent's `count` to its old value plus 1; and `Progress`
(`StepCompleted`) on a recorded target `T` sets `T`'s own `count` to its old
value plus 1. -/
theorem c4_increments :
    (∀ (t : ProgressTracker) (T : StageId) (pT pP : Progress),
      PMap.find? t.items T = some pT →
      PMap.find? t.items pT.parent = some pP →
      PMap.find? (ProgressTracker.update t T .EndStage).items pT.parent =
        some { pP with count := pP.count + 1 }) ∧
    (∀ (t : ProgressTracker) (T : StageId) (p : Progress),
      PMap.find? t.items T = some p →
      PMap.find? (ProgressTracker.update t T .Progress).items T =
        some { p with count := p.count + 1 }) := by
  constructor
  · intro t T pT pP hT hP
    simp [ProgressTracker.update, hT, hP, PMap.find?_insert_self]
  · intro t T p hT
    simp [ProgressTracker.update, hT, PMap.find?_insert_self]

/-- C4 witness: concrete two-stage tracker; ending stage 2 bumps stage 1's
count, a step on stage 2 bumps stage 2's count. -/
theorem c4_increments_witness :
    PMap.find? (ProgressTracker.update
        ⟨[(1, ⟨0, 1, 0, "build"⟩), (2, ⟨1, 3, 3, "compile"⟩)], [(0, [1]), (1, [2])]⟩
        2 .EndStage).items 1 = some ⟨0, 1, 1, "build"⟩ ∧
    PMap.find? (ProgressTracker.update
        ⟨[(1, ⟨0, 1, 0, "build"⟩), (2, ⟨1, 3, 3, "compile"⟩)], [(0, [1]), (1, [2])]⟩
        2 .Progress).items 2 = some ⟨1, 3, 4, "compile"⟩ :=
  ⟨c4_increments.1 _ 2 ⟨1, 3, 3, "compile"⟩ ⟨0, 1, 0, "build"⟩ rfl rfl,
   c4_increments.2 _ 2 ⟨1, 3, 3, "compile"⟩ rfl⟩

/-- C9: `EndStage` on a target `T` whose record's parent has no record (e.g.
a top-level stage with parent 0) leaves the records map untouched and changes
the children map only by dropping `T`'s own entry. -/
theorem c9_end_orphan_frame (t : ProgressTracker) (T : StageId) (p : Progress)
    (hT : PMap.find? t.items T = some p)
    (hP : PMap.find? t.items p.parent = none) :
    (ProgressTracker.update t T .EndStage).items = t.items ∧
    PMap.find? (ProgressTracker.update t T .EndStage).children T = none ∧
    ∀ k, k ≠ T → PMap.find? (ProgressTracker.update t T .EndStage).children k =
      PMap.find? t.children k := by
  refine ⟨?_, ?_, ?_⟩
  · simp [ProgressTracker.update, hT, hP]
  · rw [update_end_children]
    exact PMap.find?_erase_self _ _
  · intro k hk
    rw [update_end_children]
    exact PMap.find?_erase_ne _ _ _ hk

/-- C9 witness: stage 7 has parent 0 (no record); ending 7 keeps the records
map, drops `children[7]`, keeps `children[3]`. -/
theorem c9_end_orphan_frame_witness :
    (ProgressTracker.update ⟨[(7, ⟨0, 2, 1, "x"⟩)], [(7, [9]), (3, [7])]⟩
        7 .EndStage).items = [(7, ⟨0, 2, 1, "x"⟩)] ∧
    PMap.find? (ProgressTracker.update ⟨[(7, ⟨0, 2, 1, "x"⟩)], [(7, [9]), (3, [7])]⟩
        7 .EndStage).children 7 = none ∧
    PMap.find? (ProgressTracker.update ⟨[(7, ⟨0, 2, 1, "x"⟩)], [(7, [9]), (3, [7])]⟩
        7 .EndStage).children 3 = some [7] := by
  have h := c9_end_orphan_frame ⟨[(7, ⟨0, 2, 1, "x"⟩)], [(7, [9]), (3, [7])]⟩
    7 ⟨0, 2, 1, "x"⟩ rfl rfl
  exact ⟨h.1, h.2.1, (h.2.2 3 (by decide)).trans rfl⟩

/-- C10: `BeginStage` for an id that already has a record replaces the record
(fresh `count = 0`, name/total from the event, parent = the event's target)
and appends the id to the target's child list once more, so an id can occur
twice in a child list. -/
theorem c10_rebegin (t : ProgressTracker) (P id : StageId) (name : String)
    (steps : Nat) (old : Progress)
    (_h : PMap.find? t.items id = some old) :
    PMap.find? (ProgressTracker.update t P (.BeginStage id name steps)).items id =
      some ⟨P, steps, 0, name⟩ ∧
    PMap.find? (ProgressTracker.update t P (.BeginStage id name steps)).children P =
      some ((PMap.find? t.children P).getD [] ++ [id]) ∧
    (id ∈ (PMap.find? t.children P).getD [] →
      2 ≤ ((PMap.find? (ProgressTracker.update t P
        (.BeginStage id name steps)).children P).getD []).count id) := by
  have h2 : PMap.find? (ProgressTracker.update t P (.BeginStage id name steps)).children P =
      some ((PMap.find? t.children P).getD [] ++ [id]) := by
    simp [ProgressTracker.update, PMap.find?_insert_self]
  refine ⟨?_, h2, ?_⟩
  · simp [ProgressTracker.update, PMap.find?_insert_self]
  · intro hmem
    rw [h2]
    have hpos := List.count_pos_iff.mpr hmem
    rw [Option.getD_some, List.count_append]
    have h1 : List.count id [id] = 1 := by simp
    omega

/-- C10 witness: re-beginning stage 1 under parent 0 resets its record and
duplicates it in parent 0's child list. -/
theorem c10_rebegin_witness :
    PMap.find? (ProgressTracker.update ⟨[(1, ⟨0, 2, 1, "a"⟩)], [(0, [1])]⟩ 0
      (.BeginStage 1 "b" 5)).items 1 = some ⟨0, 5, 0, "b"⟩ ∧
    PMap.find? (ProgressTracker.update ⟨[(1, ⟨0, 2, 1, "a"⟩)], [(0, [1])]⟩ 0
      (.BeginStage 1 "b" 5)).children 0 = some [1, 1] ∧
    2 ≤ ((PMap.find? (ProgressTracker.update ⟨[(1, ⟨0, 2, 1, "a"⟩)], [(0, [1])]⟩ 0
      (.BeginStage 1 "b" 5)).children 0).getD []).count 1 := by
  have h := c10_rebegin ⟨[(1, ⟨0, 2, 1, "a"⟩)], [(0, [1])]⟩ 0 1 "b" 5 ⟨0, 2, 1, "a"⟩ rfl
  exact ⟨h.1, h.2.1, h.2.2 (by decide)⟩

/-- C3 counterexample: target 99 has no record, yet `EndStage` for 99 removes
the pre-existing `children[99]` entry, so the state is not left unchanged. -/
theorem c3_unknown_counterexample :
    PMap.find? (⟨[(5, ⟨99, 1, 0, "x"⟩)], [(99, [5])]⟩ : ProgressTracker).items 99 = none ∧
    PMap.find? (⟨[(5, ⟨99, 1, 0, "x"⟩)], [(99, [5])]⟩ : ProgressTracker).children 99 = some [5] ∧
    ProgressTracker.update ⟨[(5, ⟨99, 1, 0, "x"⟩)], [(99, [5])]⟩ 99 .EndStage ≠
      ⟨[(5, ⟨99, 1, 0, "x"⟩)], [(99, [5])]⟩ := by decide

/-- C3 (amended): for an unknown target, `StepCompleted` leaves the whole
state unchanged; `EndStage` leaves the records map unchanged and changes the
children map only by removing the target's entry — so the whole state is
unchanged whenever the unknown target also has no children entry. -/
theorem c3_unknown_amended (t : ProgressTracker) (T : StageId)
    (h : PMap.find? t.items T = none) :
    ProgressTracker.update t T .Progress = t ∧
    (ProgressTracker.update t T .EndStage).items = t.items ∧
    (ProgressTracker.update t T .EndStage).children = PMap.erase t.children T ∧
    (PMap.find? t.children T = none → ProgressTracker.update t T .EndStage = t) := by
  have h1 : (ProgressTracker.update t T .EndStage).items = t.items := by
    simp [ProgressTracker.update, h]
  refine ⟨?_, h1, update_end_children t T, ?_⟩
  · simp [ProgressTracker.update, h]
  · intro hc
    calc ProgressTracker.update t T .EndStage
        = ⟨(ProgressTracker.update t T .EndStage).items,
           (ProgressTracker.update t T .EndStage).children⟩ := rfl
      _ = ⟨t.items, t.children⟩ := by
            rw [h1, update_end_children t T, PMap.erase_of_find?_none _ _ hc]
      _ = t := rfl

/-- C3 witness: target 3 is unknown and has no children entry, so both event
kinds leave the concrete state untouched. -/
theorem c3_unknown_amended_witness :
    ProgressTracker.update ⟨[(5, ⟨99, 1, 0, "x"⟩)], [(99, [5])]⟩ 3 .Progress =
      ⟨[(5, ⟨99, 1, 0, "x"⟩)], [(99, [5])]⟩ ∧
    ProgressTracker.update ⟨[(5, ⟨99, 1, 0, "x"⟩)], [(99, [5])]⟩ 3 .EndStage =
      ⟨[(5, ⟨99, 1, 0, "x"⟩)], [(99, [5])]⟩ :=
  ⟨(c3_unknown_amended ⟨[(5, ⟨99, 1, 0, "x"⟩)], [(99, [5])]⟩ 3 rfl).1,
   (c3_unknown_amended ⟨[(5, ⟨99, 1, 0, "x"⟩)], [(99, [5])]⟩ 3 rfl).2.2.2 rfl⟩

/-- C1 counterexample: ending stage 2 (child of 1) does *not* remove 2 from
stage 1's child list, and a subsequent render still prints stage 2's line. -/
theorem c1_pruning_counterexample :
    PMap.find? (ProgressTracker.update
      ⟨[(1, ⟨0, 1, 0, "build"⟩), (2, ⟨1, 3, 3, "compile"⟩)], [(0, [1]), (1, [2])]⟩
      2 .EndStage).children 1 = some [2] ∧
    ProgressTracker.print (ProgressTracker.update
      ⟨[(1, ⟨0, 1, 0, "build"⟩), (2, ⟨1, 3, 3, "compile"⟩)], [(0, [1]), (1, [2])]⟩
      2 .EndStage) 5 =
      [(0, "build", 1, 1), (1, "compile", 3, 3)] := by decide

/-- C1 (amended): after `EndStage` on a recorded stage `T`, the children map
no longer has an entry for `T` itself (so a render walks nothing below `T`:
`T` prints as exactly its own line), every other child list — including the
former parent's, which still lists `T` — is unchanged, and `T`'s record is
still retrievable. -/
theorem c1_pruning_amended (t : ProgressTracker) (T : StageId) (p : Progress)
    (h : PMap.find? t.items T = some p) :
    PMap.find? (ProgressTracker.update t T .EndStage).children T = none ∧
    (∀ k, k ≠ T → PMap.find? (ProgressTracker.update t T .EndStage).children k =
      PMap.find? t.children k) ∧
    ∃ q : Progress,
      PMap.find? (ProgressTracker.update t T .EndStage).items T = some q ∧
      ∀ fuel lvl, ProgressTracker.printItem (ProgressTracker.update t T .EndStage)
        (fuel + 1) T lvl = [(lvl, q.name, q.count, q.total)] := by
  have hcnone : PMap.find? (ProgressTracker.update t T .EndStage).children T = none := by
    rw [update_end_children]
    exact PMap.find?_erase_self _ _
  refine ⟨hcnone, ?_, ?_⟩
  · intro k hk
    rw [update_end_children]
    exact PMap.find?_erase_ne _ _ _ hk
  · have hsome : ∃ q : Progress,
        PMap.find? (ProgressTracker.update t T .EndStage).items T = some q := by
      cases hP : PMap.find? t.items p.parent with
      | none => exact ⟨p, by simp [ProgressTracker.update, h, hP]⟩
      | some q0 =>
        by_cases hpt : p.parent = T
        · refine ⟨{ q0 with count := q0.count + 1 }, ?_⟩
          rw [update_end_items_bump t T p q0 h hP, hpt]
          exact PMap.find?_insert_self _ _ _
        · refine ⟨p, ?_⟩
          rw [update_end_items_bump t T p q0 h hP,
            PMap.find?_insert_ne _ _ _ _ (fun hh => hpt hh.symm)]
          exact h
    obtain ⟨q, hq⟩ := hsome
    exact ⟨q, hq, fun fuel lvl => printItem_leaf _ T q hq hcnone fuel lvl⟩

/-- C1 witness: in the concrete two-stage tracker, stage 2's record is present
and after its `EndStage` the children map has no entry for 2. -/
theorem c1_pruning_witness :
    PMap.find? (⟨[(1, ⟨0, 1, 0, "build"⟩), (2, ⟨1, 3, 3, "compile"⟩)],
      [(0, [1]), (1, [2])]⟩ : ProgressTracker).items 2 = some ⟨1, 3, 3, "compile"⟩ ∧
    PMap.find? (ProgressTracker.update
      ⟨[(1, ⟨0, 1, 0, "build"⟩), (2, ⟨1, 3, 3, "compile"⟩)], [(0, [1]), (1, [2])]⟩
      2 .EndStage).children 2 = none :=
  ⟨rfl, (c1_pruning_amended
    ⟨[(1, ⟨0, 1, 0, "build"⟩), (2, ⟨1, 3, 3, "compile"⟩)], [(0, [1]), (1, [2])]⟩
    2 ⟨1, 3, 3, "compile"⟩ rfl).1⟩

/-- A single event that is not a `BeginStage` re-declaring `X` keeps `X`'s
record and never decreases its count. -/
theorem update_count_mono (t : ProgressTracker) (target : StageId)
    (ev : ProgressReport) (X : StageId) (p : Progress)
    (hnb : isBeginOf X ev = false)
    (h : PMap.find? t.items X = some p) :
    ∃ q, PMap.find? (ProgressTracker.update t target ev).items X = some q ∧
      p.count ≤ q.count := by
  cases ev with
  | BeginStage id name steps =>
    have hid : id ≠ X := by simpa [isBeginOf] using hnb
    refine ⟨p, ?_, le_refl _⟩
    have hitems : (ProgressTracker.update t target (.BeginStage id name steps)).items =
        PMap.insert t.items id ⟨target, steps, 0, name⟩ := rfl
    rw [hitems, PMap.find?_insert_ne _ _ _ _ (fun hh => hid hh.symm)]
    exact h
  | Progress =>
    cases hT : PMap.find? t.items target with
    | none =>
      refine ⟨p, ?_, le_refl _⟩
      simp [ProgressTracker.update, hT, h]
    | some item =>
      by_cases htX : target = X
      · subst htX
        have hip : item = p := Option.some.inj (hT.symm.trans h)
        subst hip
        refine ⟨{ item with count := item.count + 1 }, ?_, Nat.le_succ _⟩
        simp [ProgressTracker.update, hT, PMap.find?_insert_self]
      · refine ⟨p, ?_, le_refl _⟩
        have heq : (ProgressTracker.update t target .Progress).items =
            PMap.insert t.items target { item with count := item.count + 1 } := by
          simp [ProgressTracker.update, hT]
        rw [heq, PMap.find?_insert_ne _ _ _ _ (fun hh => htX hh.symm)]
        exact h
  | EndStage =>
    cases hT : PMap.find? t.items target with
    | none =>
      refine ⟨p, ?_, le_refl _⟩
      have heq : (ProgressTracker.update t target .EndStage).items = t.items := by
        simp [ProgressTracker.update, hT]
      rw [heq]
      exact h
    | some pt =>
      cases hP : PMap.find? t.items pt.parent with
      | none =>
        refine ⟨p, ?_, le_refl _⟩
        have heq : (ProgressTracker.update t target .EndStage).items = t.items := by
          simp [ProgressTracker.update, hT, hP]
        rw [heq]
        exact h
      | some q0 =>
        by_cases hgX : pt.parent = X
        · have hqp : q0 = p := Option.some.inj ((hgX ▸ hP).symm.trans h)
          refine ⟨{ q0 with count := q0.count + 1 }, ?_, ?_⟩
          · rw [update_end_items_bump t target pt q0 hT hP, hgX]
            exact PMap.find?_insert_self _ _ _
          · rw [hqp]
            exact Nat.le_succ _
        · refine ⟨p, ?_, le_refl _⟩
          rw [update_end_items_bump t target pt q0 hT hP,
            PMap.find?_insert_ne _ _ _ _ (fun hh => hgX hh.symm)]
          exact h

/-- Folding `update` over events without a `BeginStage` for `X` keeps `X`'s
record with a count at least as large. -/
theorem applyEvents_count_mono (X : StageId) :
    ∀ (evs : List (StageId × ProgressReport)) (t : ProgressTracker) (p : Progress),
      (∀ e ∈ evs, isBeginOf X e.2 = false) →
      PMap.find? t.items X = some p →
      ∃ q, PMap.find? (applyEvents t evs).items X = some q ∧ p.count ≤ q.count := by
  intro evs
  induction evs with
  | nil => exact fun t p _ h => ⟨p, h, le_refl _⟩
  | cons e rest ih =>
    intro t p hnb h
    obtain ⟨q1, hq1, hle1⟩ :=
      update_count_mono t e.1 e.2 X p (hnb e (List.mem_cons_self _ _)) h
    obtain ⟨q2, hq2, hle2⟩ :=
      ih (ProgressTracker.update t e.1 e.2) q1
        (fun e' he' => hnb e' (List.mem_cons_of_mem _ he')) hq1
    exact ⟨q2, hq2, le_trans hle1 hle2⟩

/-- C5 (amended): a record's count is non-decreasing under any sequence of
events that contains no `BeginStage` re-using its id (a re-begin resets the
count to 0); it grows by exactly 1 per `StepCompleted` targeting it and per
`EndStage` of a recorded stage whose `parent` field is it. -/
theorem c5_count_monotone_amended (X : StageId) :
    (∀ (t : ProgressTracker) (evs : List (StageId × ProgressReport)) (p : Progress),
      (∀ e ∈ evs, isBeginOf X e.2 = false) →
      PMap.find? t.items X = some p →
      ∃ q, PMap.find? (applyEvents t evs).items X = some q ∧ p.count ≤ q.count) ∧
    (∀ (t : ProgressTracker) (p : Progress),
      PMap.find? t.items X = some p →
      PMap.find? (ProgressTracker.update t X .Progress).items X =
        some { p with count := p.count + 1 }) ∧
    (∀ (t : ProgressTracker) (C : StageId) (pc pX : Progress),
      PMap.find? t.items C = some pc → pc.parent = X →
      PMap.find? t.items X = some pX →
      PMap.find? (ProgressTracker.update t C .EndStage).items X =
        some { pX with count := pX.count + 1 }) := by
  refine ⟨fun t evs p hnb h => applyEvents_count_mono X evs t p hnb h, ?_, ?_⟩
  · intro t p h
    simp [ProgressTracker.update, h, PMap.find?_insert_self]
  · intro t C pc pX hc hparent hX
    have hP : PMap.find? t.items pc.parent = some pX := by
      rw [hparent]
      exact hX
    rw [update_end_items_bump t C pc pX hc hP, hparent]
    exact PMap.find?_insert_self _ _ _

/-- C5 counterexample: the claim's unconditional monotonicity fails — a
`BeginStage` re-using id 1 drops its count from 2 back to 0. -/
theorem c5_count_monotone_counterexample :
    PMap.find? (⟨[(1, ⟨0, 5, 2, "a"⟩)], [(0, [1])]⟩ : ProgressTracker).items 1 =
      some ⟨0, 5, 2, "a"⟩ ∧
    PMap.find? (applyEvents ⟨[(1, ⟨0, 5, 2, "a"⟩)], [(0, [1])]⟩
      [(0, .BeginStage 1 "b" 7)]).items 1 = some ⟨0, 7, 0, "b"⟩ := by decide

/-- C5 witness: a `StepCompleted` sequence keeps record 1 and its count grows
from 2; a single `StepCompleted` sets it to exactly 3. -/
theorem c5_count_monotone_witness :
    (∃ q, PMap.find? (applyEvents ⟨[(1, ⟨0, 5, 2, "a"⟩)], [(0, [1])]⟩
      [(1, .Progress)]).items 1 = some q ∧ 2 ≤ q.count) ∧
    PMap.find? (ProgressTracker.update ⟨[(1, ⟨0, 5, 2, "a"⟩)], [(0, [1])]⟩
      1 .Progress).items 1 = some ⟨0, 5, 3, "a"⟩ :=
  ⟨(c5_count_monotone_amended 1).1 ⟨[(1, ⟨0, 5, 2, "a"⟩)], [(0, [1])]⟩
      [(1, .Progress)] ⟨0, 5, 2, "a"⟩
      (by intro e he; rw [List.mem_singleton] at he; rw [he]; rfl) rfl,
   (c5_count_monotone_amended 1).2.1 ⟨[(1, ⟨0, 5, 2, "a"⟩)], [(0, [1])]⟩
      ⟨0, 5, 2, "a"⟩ rfl⟩

/-- Count-bumping an existing record preserves tree consistency. -/
theorem treeConsistent_bump (t : ProgressTracker) (k : StageId) (item : Progress)
    (hk : PMap.find? t.items k = some item) (hinv : treeConsistent t) :
    treeConsistent
      ⟨PMap.insert t.items k { item with count := item.count + 1 }, t.children⟩ := by
  obtain ⟨hc, hi⟩ := hinv
  constructor
  · intro e he
    rcases hc e he with h0 | hs
    · exact Or.inl h0
    · exact Or.inr (PMap.isSome_find?_insert _ _ _ _ hs)
  · intro e he
    rcases PMap.mem_insert.mp he with rfl | ⟨hem, _⟩
    · rcases hi (k, item) (PMap.find?_some_mem hk) with h0 | hs
      · exact Or.inl h0
      · exact Or.inr (PMap.isSome_find?_insert _ _ _ _ hs)
    · rcases hi e hem with h0 | hs
      · exact Or.inl h0
      · exact Or.inr (PMap.isSome_find?_insert _ _ _ _ hs)

/-- Removing a children entry preserves tree consistency. -/
theorem treeConsistent_eraseChild (t : ProgressTracker) (T : StageId)
    (hinv : treeConsistent t) :
    treeConsistent ⟨t.items, PMap.erase t.children T⟩ := by
  obtain ⟨hc, hi⟩ := hinv
  exact ⟨fun e he => hc e (PMap.mem_erase.mp he).1, hi⟩

/-- A `BeginStage` whose target is 0 or has a record preserves tree
consistency. -/
theorem treeConsistent_begin (t : ProgressTracker) (target id : StageId)
    (name : String) (steps : Nat)
    (htarget : target = 0 ∨ (PMap.find? t.items target).isSome)
    (hinv : treeConsistent t) :
    treeConsistent (ProgressTracker.update t target (.BeginStage id name steps)) := by
  obtain ⟨hc, hi⟩ := hinv
  have hitems : (ProgressTracker.update t target (.BeginStage id name steps)).items =
      PMap.insert t.items id ⟨target, steps, 0, name⟩ := rfl
  have hchildren : (ProgressTracker.update t target (.BeginStage id name steps)).children =
      PMap.insert t.children target ((PMap.find? t.children target).getD [] ++ [id]) := rfl
  constructor
  · intro e he
    rw [hchildren] at he
    rcases PMap.mem_insert.mp he with rfl | ⟨hem, _⟩
    · rcases htarget with h0 | hs
      · exact Or.inl h0
      · refine Or.inr ?_
        rw [hitems]
        exact PMap.isSome_find?_insert _ _ _ _ hs
    · rcases hc e hem with h0 | hs
      · exact Or.inl h0
      · refine Or.inr ?_
        rw [hitems]
        exact PMap.isSome_find?_insert _ _ _ _ hs
  · intro e he
    rw [hitems] at he
    rcases PMap.mem_insert.mp he with rfl | ⟨hem, _⟩
    · rcases htarget with h0 | hs
      · exact Or.inl h0
      · refine Or.inr ?_
        rw [hitems]
        exact PMap.isSome_find?_insert _ _ _ _ hs
    · rcases hi e hem with h0 | hs
      · exact Or.inl h0
      · refine Or.inr ?_
        rw [hitems]
        exact PMap.isSome_find?_insert _ _ _ _ hs

/-- Applying a valid event suffix preserves tree consistency, provided every
already-begun id has a record. -/
theorem validOk_treeConsistent :
    ∀ (evs : List (StageId × ProgressReport)) (begun : List StageId)
      (t : ProgressTracker),
      (∀ i ∈ begun, (PMap.find? t.items i).isSome) →
      treeConsistent t → validOk begun evs = true →
      treeConsistent (applyEvents t evs) := by
  intro evs
  induction evs with
  | nil => exact fun begun t _ hinv _ => hinv
  | cons e rest ih =>
    intro begun t hb hinv hv
    obtain ⟨target, ev⟩ := e
    cases ev with
    | BeginStage id name steps =>
      simp only [validOk, Bool.and_eq_true, Bool.or_eq_true, beq_iff_eq] at hv
      have htarget : target = 0 ∨ (PMap.find? t.items target).isSome := by
        rcases hv.1 with h0 | hcont
        · exact Or.inl h0
        · exact Or.inr (hb target (by simpa using hcont))
      have hb' : ∀ i ∈ id :: begun,
          (PMap.find? (ProgressTracker.update t target
            (.BeginStage id name steps)).items i).isSome := by
        intro i hi
        have hitems : (ProgressTracker.update t target (.BeginStage id name steps)).items =
            PMap.insert t.items id ⟨target, steps, 0, name⟩ := rfl
        rw [hitems]
        rcases List.mem_cons.mp hi with rfl | hmem
        · rw [PMap.find?_insert_self]
          rfl
        · exact PMap.isSome_find?_insert _ _ _ _ (hb i hmem)
      exact ih (id :: begun) _ hb' (treeConsistent_begin t target id name steps htarget hinv) hv.2
    | Progress =>
      simp only [validOk, Bool.and_eq_true] at hv
      cases hT : PMap.find? t.items target with
      | none =>
        have hu : ProgressTracker.update t target .Progress = t := by
          simp [ProgressTracker.update, hT]
        refine ih begun (ProgressTracker.update t target .Progress) ?_ ?_ hv.2
        · rw [hu]
          exact hb
        · rw [hu]
          exact hinv
      | some item =>
        have hu : ProgressTracker.update t target .Progress =
            ⟨PMap.insert t.items target { item with count := item.count + 1 }, t.children⟩ := by
          simp [ProgressTracker.update, hT]
        refine ih begun (ProgressTracker.update t target .Progress) ?_ ?_ hv.2
        · intro i hi
          rw [hu]
          exact PMap.isSome_find?_insert _ _ _ _ (hb i hi)
        · rw [hu]
          exact treeConsistent_bump t target item hT hinv
    | EndStage =>
      simp only [validOk, Bool.and_eq_true] at hv
      cases hT : PMap.find? t.items target with
      | none =>
        have hu : ProgressTracker.update t target .EndStage =
            ⟨t.items, PMap.erase t.children target⟩ := by
          simp [ProgressTracker.update, hT]
        refine ih begun (ProgressTracker.update t target .EndStage) ?_ ?_ hv.2
        · intro i hi
          rw [hu]
          exact hb i hi
        · rw [hu]
          exact treeConsistent_eraseChild t target hinv
      | some pt =>
        cases hP : PMap.find? t.items pt.parent with
        | none =>
          have hu : ProgressTracker.update t target .EndStage =
              ⟨t.items, PMap.erase t.children target⟩ := by
            simp [ProgressTracker.update, hT, hP]
          refine ih begun (ProgressTracker.update t target .EndStage) ?_ ?_ hv.2
          · intro i hi
            rw [hu]
            exact hb i hi
          · rw [hu]
            exact treeConsistent_eraseChild t target hinv
        | some q0 =>
          have hu : ProgressTracker.update t target .EndStage =
              ⟨PMap.insert t.items pt.parent { q0 with count := q0.count + 1 },
               PMap.erase t.children target⟩ := by
            simp [ProgressTracker.update, hT, hP]
          refine ih begun (ProgressTracker.update t target .EndStage) ?_ ?_ hv.2
          · intro i hi
            rw [hu]
            exact PMap.isSome_find?_insert _ _ _ _ (hb i hi)
          · rw [hu]
            exact treeConsistent_eraseChild
              ⟨PMap.insert t.items pt.parent { q0 with count := q0.count + 1 }, t.children⟩
              target (treeConsistent_bump t pt.parent q0 hP hinv)

/-- C6: any valid event sequence (each stage begun before its other events
and before any begin naming it as parent) applied to the empty tracker yields
a state where every children-map key and every `parent` field is the virtual
root 0 or an id with a record. -/
theorem c6_tree_consistency (evs : List (StageId × ProgressReport))
    (hv : validOk [] evs = true) :
    treeConsistent (applyEvents ProgressTracker.default evs) :=
  validOk_treeConsistent evs [] ProgressTracker.default
    (fun i hi => absurd hi (List.not_mem_nil i))
    ⟨fun e he => absurd he (List.not_mem_nil e),
     fun e he => absurd he (List.not_mem_nil e)⟩ hv

/-- C6 witness: a concrete valid sequence with a nested stage, a step and an
end keeps the tracker tree-consistent. -/
theorem c6_tree_consistency_witness :
    validOk [] [(0, .BeginStage 1 "a" 2), (1, .BeginStage 2 "b" 0),
      (2, .Progress), (2, .EndStage)] = true ∧
    treeConsistent (applyEvents ProgressTracker.default
      [(0, .BeginStage 1 "a" 2), (1, .BeginStage 2 "b" 0),
       (2, .Progress), (2, .EndStage)]) :=
  ⟨by decide, c6_tree_consistency _ (by decide)⟩

/-- Closed form of the id stream: the `i`-th call from counter value
`c < 2^64` returns `(c + i) mod 2^64`. -/
theorem idsFrom_formula : ∀ (n c : Nat), c < USIZE →
    idsFrom c n = (List.range n).map (fun i => (c + i) % USIZE) := by
  intro n
  induction n with
  | zero => intro c _; rfl
  | succ n ih =>
    intro c hc
    have hcons : idsFrom c (n + 1) = c :: idsFrom ((c + 1) % USIZE) n := rfl
    rw [hcons, ih ((c + 1) % USIZE) (Nat.mod_lt _ (by decide)),
      List.range_succ_eq_map, List.map_cons, List.map_map]
    congr 1
    · rw [Nat.add_zero, Nat.mod_eq_of_lt hc]
    · have hfun : (fun i => ((c + 1) % USIZE + i) % USIZE) =
          ((fun i => (c + i) % USIZE) ∘ Nat.succ) := by
        funext i
        simp only [Function.comp_apply]
        rw [Nat.mod_add_mod]
        congr 1
        omega
      rw [hfun]

/-- The value `(c + i) mod 2^64` is among the ids of `n > i` calls from
counter value `c`. -/
theorem mem_idsFrom_of {c n i : Nat} (hc : c < USIZE) (hi : i < n) :
    (c + i) % USIZE ∈ idsFrom c n := by
  rw [idsFrom_formula n c hc]
  exact List.mem_map_of_mem _ (List.mem_range.mpr hi)

/-- C7 counterexample: because `fetch_add` wraps, the `2^64`-th `make_id`
call from the initial counter returns the reserved root id 0, and with one
further call the stream is no longer duplicate-free (id 1 repeats). -/
theorem c7_make_id_counterexample :
    0 ∈ idsFrom initialCounter USIZE ∧
    ¬ (idsFrom initialCounter (USIZE + 1)).Nodup := by
  constructor
  · have h := mem_idsFrom_of (c := initialCounter) (n := USIZE) (i := USIZE - 1)
      (by decide) (by decide)
    have h0 : (initialCounter + (USIZE - 1)) % USIZE = 0 := by decide
    exact h0 ▸ h
  · intro hN
    have hcons : idsFrom initialCounter (USIZE + 1) =
        1 :: idsFrom (2 % USIZE) USIZE := rfl
    rw [hcons, (by decide : (2 : Nat) % USIZE = 2)] at hN
    have hmem : (1 : Nat) ∈ idsFrom 2 USIZE := by
      have h := mem_idsFrom_of (c := 2) (n := USIZE) (i := USIZE - 1)
        (by decide) (by decide)
      have e1 : (2 + (USIZE - 1)) % USIZE = 1 := by decide
      exact e1 ▸ h
    exact (List.nodup_cons.mp hN).1 hmem

/-- C7 (amended): for any sequence of fewer than `2^64` `make_id` calls on
the shared reporter state started from `Reporter::new`'s counter value 1
(the atomic serialises concurrent callers into such a sequence), all
returned stage ids are pairwise distinct and the reserved virtual root id 0
is never returned.  The bound is tight: the wrapping counter returns 0 on
the `2^64`-th call. -/
theorem c7_make_id_unique_amended (n : Nat) (h : n < USIZE) :
    (idsFrom initialCounter n).Nodup ∧ 0 ∉ idsFrom initialCounter n := by
  rw [idsFrom_formula n initialCounter (by decide)]
  constructor
  · refine List.Nodup.map_on ?_ (List.nodup_range n)
    intro x hx y hy hxy
    rw [List.mem_range] at hx hy
    have hx2 : initialCounter + x < USIZE := by
      simp only [initialCounter]
      omega
    have hy2 : initialCounter + y < USIZE := by
      simp only [initialCounter]
      omega
    have hxy2 : initialCounter + x = initialCounter + y := by
      rw [← Nat.mod_eq_of_lt hx2, ← Nat.mod_eq_of_lt hy2]
      exact hxy
    omega
  · intro hmem
    rw [List.mem_map] at hmem
    obtain ⟨i, hi, hval⟩ := hmem
    rw [List.mem_range] at hi
    have hlt : initialCounter + i < USIZE := by
      simp only [initialCounter]
      omega
    have hval2 : initialCounter + i = 0 := by
      rw [← Nat.mod_eq_of_lt hlt]
      exact hval
    simp only [initialCounter] at hval2
    omega

/-- C7 witness: three calls stay below the wrap bound and give distinct,
non-zero ids. -/
theorem c7_make_id_unique_witness :
    3 < USIZE ∧
    ((idsFrom initialCounter 3).Nodup ∧ 0 ∉ idsFrom initialCounter 3) :=
  ⟨by decide, c7_make_id_unique_amended 3 (by decide)⟩

/-- C2 counterexample: `Drop` runs once per handle value, so a cloned handle
for stage 5 produces two `EndStage` events for 5 when both copies are
dropped — more than one despite a single stage id. -/
theorem c2_drop_counterexample :
    dropAll [⟨5⟩, Reporter.clone ⟨5⟩] =
      [(5, ProgressReport.EndStage), (5, ProgressReport.EndStage)] ∧
    1 < List.countP (fun e => decide (e = ((5 : StageId), ProgressReport.EndStage)))
      (dropAll [⟨5⟩, Reporter.clone ⟨5⟩]) := by decide

/-- C2 (amended): dropping a collection of handles emits exactly one
`EndStage` per handle bound to `S` — one for the original and one for every
clone — so a never-cloned handle emits exactly one `EndStage` for its id. -/
theorem c2_drop_per_handle (hs : List Reporter) (S : StageId) :
    List.countP (fun e => decide (e = (S, ProgressReport.EndStage))) (dropAll hs) =
      List.countP (fun r => decide (r.id = S)) hs := by
  induction hs with
  | nil => rfl
  | cons r rest ih =>
    have hd : dropAll (r :: rest) = (r.id, ProgressReport.EndStage) :: dropAll rest := rfl
    rw [hd, List.countP_cons, List.countP_cons, ih]
    congr 1
    by_cases h : r.id = S
    · simp [h]
    · simp [h]

/-- C8: run of the modelled consumer loop at the spec's coalescing scenario
(interval 10 time units, E1 at t = 0, E2 at t = 3 = 0.3×interval, no further
events).  The code renders at t = 0 with an empty tracker, again at t = 0
having applied only E1 (its receive timeout is `elapsed`, which is zero, so
the window closes immediately), and a third time at t = 3 after E2 — instead
of coalescing E1 and E2 into one window with the second render in
[0.3×interval, interval]. -/
theorem c8_coalescing_run :
    sinkRenders 10 [(0, 0, .BeginStage 1 "a" 2), (3, 1, .Progress)] =
      [(0, ProgressTracker.default),
       (0, ⟨[(1, ⟨0, 2, 0, "a"⟩)], [(0, [1])]⟩),
       (3, ⟨[(1, ⟨0, 2, 1, "a"⟩)], [(0, [1])]⟩)] := by decide
